import Mathlib

/-!
Verification development for the solgo Solidity analyzer.

The Go sources are shallowly embedded: strings are modelled as `List Char`
(the relevant inputs are ASCII, so Go's byte indexing and char indexing
agree), fallible or panicking code returns `Option`, and build-scoped
mutable state (the id allocator) is passed explicitly.  Recursive string
functions are written with an explicit fuel argument equal to
`length + 1`; the recursion of the Go originals decreases the string
length at every call, so this fuel is never exhausted (stability lemmas
below make this precise).
-/

/-! ## Character and list utilities (Go `strings`, `regexp` fragments) -/

/-- Go `strings.HasPrefix s pre`, on char lists: `startsWithL pre s`. -/
def startsWithL : List Char → List Char → Bool
  | [], _ => true
  | _ :: _, [] => false
  | a :: as, b :: bs => a == b && startsWithL as bs

/-- After one mandatory digit: zero or more further digits followed by `]`.
Helper for the Go regexp fragment `\d+\]`. -/
def moreDigitsClose : List Char → Bool
  | [] => false
  | c :: cs => c == ']' || (c.isDigit && moreDigitsClose cs)

/-- One or more digits followed by `]` (the Go regexp fragment `\d+\]`). -/
def digitsThenClose : List Char → Bool
  | [] => false
  | c :: cs => c.isDigit && moreDigitsClose cs

/-- Anchored match of the Go regexp `\[\d+\]`: the list begins with
`[`, one or more digits, `]`. -/
def startsArrayPat : List Char → Bool
  | '[' :: rest => digitsThenClose rest
  | _ => false

/-- Go `regexp.MatchString "\[\d+\]" t`: the unanchored pattern matches
somewhere in `t`. -/
def containsArrayPat : List Char → Bool
  | [] => false
  | c :: cs => startsArrayPat (c :: cs) || containsArrayPat cs

/-- Go `strings.Index t c` for a one-char needle: first index, or none. -/
def listIndexOf (c : Char) : List Char → Option Nat
  | [] => none
  | a :: as => if a == c then some 0 else (listIndexOf c as).map (· + 1)

/-! ## The type-name normalizer (`abis/helpers.go`, `normalizeTypeName`) -/

def slicePat : List Char := ['[', ']']

def uintPat : List Char := "uint".toList

def uint256Pat : List Char := "uint256".toList

def intPat : List Char := "int".toList

def int256Pat : List Char := "int256".toList

def boolPat : List Char := "bool".toList

def bytesPat : List Char := "bytes".toList

def stringPat : List Char := "string".toList

def addressPat : List Char := "address".toList

def addresspayablePat : List Char := "addresspayable".toList

def tuplePat : List Char := "tuple".toList

/-- The non-recursive arms of `normalizeTypeName`'s switch (the `uint`,
`int`, `bool`, `bytes`, `string`, `address`, `addresspayable`, `tuple`
and default cases), in source order. -/
def normalizeFlat (t : List Char) : List Char :=
  if startsWithL uintPat t then (if t = uintPat then uint256Pat else t)
  else if startsWithL intPat t then (if t = intPat then int256Pat else t)
  else if startsWithL boolPat t then t
  else if startsWithL bytesPat t then t
  else if t = stringPat then stringPat
  else if t = addressPat then addressPat
  else if t = addresspayablePat then addressPat
  else if t = tuplePat then tuplePat
  else t

/-- Fuel-indexed embedding of `normalizeTypeName`.  The `isArray` case
takes the text between the first `[` and the first `]` as the number part
and recurses on the text after the first `]`; Go's slice expression
`typeName[i+1:j]` panics when `i + 1 > j`, which is modelled by `none`.
Each recursive call is on a strictly shorter list, so fuel
`t.length + 1` (used by `normalizeL`) never runs out. -/
def normalizeGo : Nat → List Char → Option (List Char)
  | 0, _ => none
  | n + 1, t =>
    if containsArrayPat t then
      match listIndexOf '[' t, listIndexOf ']' t with
      | some i, some j =>
        if i + 1 ≤ j then
          (normalizeGo n (t.drop (j + 1))).map
            (fun r => '[' :: ((t.drop (i + 1)).take (j - (i + 1)) ++ ']' :: r))
        else none
      | _, _ => none
    else if startsWithL slicePat t then
      (normalizeGo n (t.drop 2)).map (fun r => '[' :: ']' :: r)
    else some (normalizeFlat t)

/-- `normalizeTypeName` on char lists, with the fuel instantiated. -/
def normalizeL (t : List Char) : Option (List Char) :=
  normalizeGo (t.length + 1) t

/-- `normalizeTypeName` of `abis/helpers.go` at the `String` level.
`none` models a Go run-time panic (possible only on pathological inputs
whose first `]` comes before their first `[`). -/
def normalizeTypeName (s : String) : Option String :=
  (normalizeL s.toList).map List.asString

/-! ## Fuel stability and the unfolding equation for `normalizeL` -/

theorem startsWithL_length : ∀ (p t : List Char), startsWithL p t = true → p.length ≤ t.length
  | [], t => by simp
  | _ :: _, [] => by simp [startsWithL]
  | a :: as, b :: bs => by
    simp only [startsWithL, Bool.and_eq_true, List.length_cons]
    intro h
    exact Nat.succ_le_succ (startsWithL_length as bs h.2)

theorem containsArrayPat_ne_nil {t : List Char} (h : containsArrayPat t = true) : t ≠ [] := by
  intro he
  rw [he] at h
  simp [containsArrayPat] at h

theorem normalizeGo_stable :
    ∀ (k : Nat) (t : List Char) (n m : Nat),
      t.length ≤ k → t.length < n → t.length < m →
      normalizeGo n t = normalizeGo m t := by
  intro k
  induction k with
  | zero =>
    intro t n m hk hn hm
    have ht : t = [] := List.length_eq_zero.mp (Nat.le_zero.mp hk)
    subst ht
    cases n with
    | zero => omega
    | succ n' =>
      cases m with
      | zero => omega
      | succ m' => rfl
  | succ k ih =>
    intro t n m hk hn hm
    cases n with
    | zero => omega
    | succ n' =>
      cases m with
      | zero => omega
      | succ m' =>
        simp only [normalizeGo]
        by_cases h : containsArrayPat t
        · have ht : 0 < t.length := List.length_pos.mpr (containsArrayPat_ne_nil h)
          simp only [h, if_true]
          cases hi : listIndexOf '[' t with
          | none => rfl
          | some i =>
            cases hj : listIndexOf ']' t with
            | none => rfl
            | some j =>
              by_cases hij : i + 1 ≤ j
              · simp only [hij, if_true]
                have hlen : (t.drop (j + 1)).length < t.length := by
                  rw [List.length_drop]; omega
                rw [ih (t.drop (j + 1)) n' m' (by omega) (by omega) (by omega)]
              · simp only [hij, if_false]
        · simp only [Bool.not_eq_true] at h
          simp only [h, Bool.false_eq_true, if_false]
          by_cases hsl : startsWithL slicePat t
          · have h2 : 2 ≤ t.length := startsWithL_length slicePat t hsl
            simp only [hsl, if_true]
            have hlen : (t.drop 2).length < t.length := by
              rw [List.length_drop]; omega
            rw [ih (t.drop 2) n' m' (by omega) (by omega) (by omega)]
          · simp only [Bool.not_eq_true] at hsl
            simp only [hsl, Bool.false_eq_true, if_false]

theorem normalizeL_eq (t : List Char) :
    normalizeL t =
      if containsArrayPat t then
        match listIndexOf '[' t, listIndexOf ']' t with
        | some i, some j =>
          if i + 1 ≤ j then
            (normalizeL (t.drop (j + 1))).map
              (fun r => '[' :: ((t.drop (i + 1)).take (j - (i + 1)) ++ ']' :: r))
          else none
        | _, _ => none
      else if startsWithL slicePat t then
        (normalizeL (t.drop 2)).map (fun r => '[' :: ']' :: r)
      else some (normalizeFlat t) := by
  show normalizeGo (t.length + 1) t = _
  simp only [normalizeGo]
  by_cases h : containsArrayPat t
  · have ht : 0 < t.length := List.length_pos.mpr (containsArrayPat_ne_nil h)
    simp only [h, if_true]
    cases hi : listIndexOf '[' t with
    | none => rfl
    | some i =>
      cases hj : listIndexOf ']' t with
      | none => rfl
      | some j =>
        by_cases hij : i + 1 ≤ j
        · simp only [hij, if_true]
          have hlen : (t.drop (j + 1)).length < t.length := by
            rw [List.length_drop]; omega
          rw [normalizeGo_stable (t.drop (j + 1)).length (t.drop (j + 1)) t.length
            ((t.drop (j + 1)).length + 1) le_rfl (by omega) (by omega)]
          rfl
        · simp only [hij, if_false]
  · simp only [Bool.not_eq_true] at h
    simp only [h, Bool.false_eq_true, if_false]
    by_cases hsl : startsWithL slicePat t
    · have h2 : 2 ≤ t.length := startsWithL_length slicePat t hsl
      simp only [hsl, if_true]
      have hlen : (t.drop 2).length < t.length := by
        rw [List.length_drop]; omega
      rw [normalizeGo_stable (t.drop 2).length (t.drop 2) t.length
        ((t.drop 2).length + 1) le_rfl (by omega) (by omega)]
      rfl
    · simp only [Bool.not_eq_true] at hsl
      simp only [hsl, Bool.false_eq_true, if_false]

/-! ## Helper lemmas for the idempotence of the normalizer -/

theorem normalizeFlat_bracket (xs : List Char) : normalizeFlat ('[' :: xs) = '[' :: xs := by
  simp [normalizeFlat, uintPat, intPat, boolPat, bytesPat, stringPat, addressPat,
    addresspayablePat, tuplePat, startsWithL]

theorem startsWithL_slice_cons (xs : List Char) (c : Char) (h : (c == ']') = false) :
    startsWithL slicePat ('[' :: c :: xs) = false := by
  have h' : (']' == c) = false := beq_eq_false_iff_ne.mpr (Ne.symm (beq_eq_false_iff_ne.mp h))
  simp [slicePat, startsWithL, h']

theorem listIndexOf_append_cons (c : Char) (n r : List Char) (h : c ∉ n) :
    listIndexOf c (n ++ c :: r) = some n.length := by
  induction n with
  | nil => simp [listIndexOf]
  | cons a as ih =>
    have ha : (a == c) = false := by
      rw [beq_eq_false_iff_ne]
      intro he
      exact h (by simp [he])
    have ih' := ih (fun hm => h (List.mem_cons_of_mem _ hm))
    simp [listIndexOf, ha, ih']

theorem listIndexOf_take (c : Char) :
    ∀ (t : List Char) (j : Nat), listIndexOf c t = some j → c ∉ t.take j := by
  intro t
  induction t with
  | nil => intro j h; simp [listIndexOf] at h
  | cons a as ih =>
    intro j h
    by_cases hac : (a == c) = true
    · simp only [listIndexOf, hac, if_true] at h
      cases h
      simp
    · simp only [Bool.not_eq_true] at hac
      simp only [listIndexOf, hac, Bool.false_eq_true, if_false, Option.map_eq_some'] at h
      obtain ⟨j', hj', rfl⟩ := h
      intro hmem
      rw [List.take_cons (by omega)] at hmem
      rcases List.mem_cons.mp hmem with h1 | h2
      · exact absurd h1.symm (beq_eq_false_iff_ne.mp hac)
      · exact ih j' hj' (by simpa using h2)

theorem normalizeFlat_cases (t : List Char) :
    normalizeFlat t = t ∨ normalizeFlat t = uint256Pat ∨ normalizeFlat t = int256Pat ∨
      normalizeFlat t = addressPat := by
  unfold normalizeFlat
  split
  · split
    · right; left; rfl
    · left; rfl
  · split
    · split
      · right; right; left; rfl
      · left; rfl
    · split
      · left; rfl
      · split
        · left; rfl
        · split
          · left; exact (by assumption : t = stringPat).symm
          · split
            · left; exact (by assumption : t = addressPat).symm
            · split
              · right; right; right; rfl
              · split
                · left; exact (by assumption : t = tuplePat).symm
                · left; rfl

theorem normalizeL_bracket_fix (np r : List Char) (hnomem : ']' ∉ np)
    (hrfix : normalizeL r = some r) :
    normalizeL ('[' :: (np ++ ']' :: r)) = some ('[' :: (np ++ ']' :: r)) := by
  have hiS : listIndexOf '[' ('[' :: (np ++ ']' :: r)) = some 0 := by
    simp [listIndexOf]
  have hjX : listIndexOf ']' (np ++ ']' :: r) = some np.length :=
    listIndexOf_append_cons ']' np r hnomem
  have hjS : listIndexOf ']' ('[' :: (np ++ ']' :: r)) = some (np.length + 1) := by
    simp [listIndexOf, hjX]
  have htake : ((('[' :: (np ++ ']' :: r)).drop (0 + 1)).take (np.length + 1 - (0 + 1))) = np := by
    simp
  have hdrop : ('[' :: (np ++ ']' :: r)).drop (np.length + 1 + 1) = r := by
    show (np ++ ']' :: r).drop (np.length + 1) = r
    have h1 : np ++ ']' :: r = (np ++ [']']) ++ r := by simp
    rw [h1]
    simp
  by_cases hcs : containsArrayPat ('[' :: (np ++ ']' :: r))
  · rw [normalizeL_eq]
    simp only [hcs, if_true, hiS, hjS]
    rw [if_pos (by omega)]
    simp only [htake, hdrop, hrfix, Option.map_some']
  · rw [normalizeL_eq]
    simp only [Bool.not_eq_true] at hcs
    simp only [hcs, Bool.false_eq_true, if_false]
    cases np with
    | nil =>
      have hsl : startsWithL slicePat ('[' :: ']' :: r) = true := by
        simp [slicePat, startsWithL]
      simp only [List.nil_append]
      simp only [hsl, if_true, List.drop_succ_cons, List.drop_one]
      simp [hrfix]
    | cons c cs =>
      have hc : (c == ']') = false := by
        rw [beq_eq_false_iff_ne]
        intro he
        exact hnomem (by simp [he])
      have hsl := startsWithL_slice_cons (cs ++ ']' :: r) c hc
      simp only [List.cons_append, hsl, Bool.false_eq_true, if_false]
      rw [normalizeFlat_bracket]

/-- Any returned value of the normalizer is one of its own fixed points. -/
theorem normalizeL_fix :
    ∀ (k : Nat) (t s : List Char), t.length ≤ k → normalizeL t = some s → normalizeL s = some s := by
  intro k
  induction k with
  | zero =>
    intro t s hk hn
    have ht : t = [] := List.length_eq_zero.mp (Nat.le_zero.mp hk)
    subst ht
    have h0 : normalizeL ([] : List Char) = some [] := by decide
    rw [h0] at hn
    cases hn
    exact h0
  | succ k ih =>
    intro t s hk hn
    rw [normalizeL_eq] at hn
    by_cases h : containsArrayPat t
    · have ht : 0 < t.length := List.length_pos.mpr (containsArrayPat_ne_nil h)
      simp only [h, if_true] at hn
      split at hn
      case _ i j hi hj =>
        by_cases hij : i + 1 ≤ j
        · rw [if_pos hij, Option.map_eq_some'] at hn
          obtain ⟨r, hr, rfl⟩ := hn
          have hlen : (t.drop (j + 1)).length ≤ k := by
            rw [List.length_drop]; omega
          have hrfix : normalizeL r = some r := ih (t.drop (j + 1)) r hlen hr
          have hnomem : ']' ∉ (t.drop (i + 1)).take (j - (i + 1)) := by
            intro hm
            apply listIndexOf_take ']' t j hj
            rw [List.take_drop (i + 1) (j - (i + 1)) t] at hm
            rw [show i + 1 + (j - (i + 1)) = j from by omega] at hm
            exact List.mem_of_mem_drop hm
          exact normalizeL_bracket_fix _ r hnomem hrfix
        · rw [if_neg hij] at hn
          cases hn
      case _ => simp at hn
    · simp only [Bool.not_eq_true] at h
      simp only [h, Bool.false_eq_true, if_false] at hn
      by_cases hsl : startsWithL slicePat t
      · have h2 : 2 ≤ t.length := startsWithL_length slicePat t hsl
        simp only [hsl, if_true, Option.map_eq_some'] at hn
        obtain ⟨r, hr, rfl⟩ := hn
        have hlen : (t.drop 2).length ≤ k := by
          rw [List.length_drop]; omega
        have hrfix : normalizeL r = some r := ih (t.drop 2) r hlen hr
        have hb := normalizeL_bracket_fix [] r (by simp) hrfix
        simpa using hb
      · simp only [Bool.not_eq_true] at hsl
        simp only [hsl, Bool.false_eq_true, if_false] at hn
        cases hn
        rcases normalizeFlat_cases t with hft | hft | hft | hft
        · rw [hft]
          rw [normalizeL_eq]
          simp only [h, Bool.false_eq_true, if_false, hsl]
          rw [hft]
        · rw [hft]; decide
        · rw [hft]; decide
        · rw [hft]; decide

/-- C8: for every input string `t`, `normalize(normalize(t)) == normalize(t)`
(idempotence of `normalizeTypeName`).  A Go run-time panic is modelled by
`none` and propagates through the outer application, so the equation is
stated in the `Option` monad; on every input on which the Go function
returns, its result is a fixed point. -/
theorem c8_normalizeTypeName_idempotent (t : String) :
    (normalizeTypeName t).bind normalizeTypeName = normalizeTypeName t := by
  unfold normalizeTypeName
  cases hn : normalizeL t.toList with
  | none => rfl
  | some s =>
    have hfix : normalizeL s = some s := normalizeL_fix t.toList.length t.toList s le_rfl hn
    have hts : (List.asString s).toList = s := rfl
    simp only [Option.map_some', Option.some_bind, hts, hfix]

/-- C4 (amended): for every type name `t` that does not CONTAIN a substring
matching `\[\d+\]` (the Go check is the unanchored `regexp.MatchString`),
does not begin with `[]`, is not exactly `uint` or `int`, does not begin
with `uint`, `int`, `bool` or `bytes`, and is not `string`, `address`,
`addresspayable` or `tuple`, `normalizeTypeName t` returns `t` unchanged. -/
theorem c4_normalize_default_amended (t : String)
    (harr : containsArrayPat t.toList = false)
    (hsl : startsWithL slicePat t.toList = false)
    (hnu : t ≠ "uint") (hni : t ≠ "int")
    (hu : startsWithL uintPat t.toList = false)
    (hi : startsWithL intPat t.toList = false)
    (hb : startsWithL boolPat t.toList = false)
    (hby : startsWithL bytesPat t.toList = false)
    (hstr : t.toList ≠ stringPat) (haddr : t.toList ≠ addressPat)
    (hap : t.toList ≠ addresspayablePat) (htu : t.toList ≠ tuplePat) :
    normalizeTypeName t = some t := by
  unfold normalizeTypeName
  rw [normalizeL_eq]
  simp only [harr, Bool.false_eq_true, if_false, hsl]
  unfold normalizeFlat
  simp only [hu, hi, hb, hby, Bool.false_eq_true, if_false]
  rw [if_neg hstr, if_neg haddr, if_neg hap, if_neg htu]
  rfl

/-- C4 witness: the amended theorem applied at the concrete input `foo`. -/
theorem c4_normalize_default_witness :
    containsArrayPat "foo".toList = false ∧ normalizeTypeName "foo" = some "foo" :=
  ⟨by decide, c4_normalize_default_amended "foo" (by decide) (by decide) (by decide) (by decide)
    (by decide) (by decide) (by decide) (by decide) (by decide) (by decide) (by decide)
    (by decide)⟩

/-- C4 counterexample: `foo[2]` satisfies every premise of the claim as
stated (in particular it does not match the ANCHORED pattern
`^\[(\d+)\]`), yet `normalizeTypeName` rewrites it to `[2]` rather than
returning it unchanged, because the Go code's array test
`regexp.MatchString` is unanchored. -/
theorem c4_normalize_default_counterexample :
    startsArrayPat "foo[2]".toList = false ∧
    startsWithL slicePat "foo[2]".toList = false ∧
    "foo[2]" ≠ "uint" ∧ "foo[2]" ≠ "int" ∧
    startsWithL uintPat "foo[2]".toList = false ∧
    startsWithL intPat "foo[2]".toList = false ∧
    startsWithL boolPat "foo[2]".toList = false ∧
    startsWithL bytesPat "foo[2]".toList = false ∧
    "foo[2]".toList ≠ stringPat ∧ "foo[2]".toList ≠ addressPat ∧
    "foo[2]".toList ≠ addresspayablePat ∧ "foo[2]".toList ≠ tuplePat ∧
    normalizeTypeName "foo[2]" = some "[2]" ∧ "[2]" ≠ "foo[2]" := by
  decide

/-! ## Mapping types (`abis/helpers.go`: `isMappingType`, `parseMappingType`) -/

/-- Go `strings.Contains s needle` on char lists. -/
def containsSubstr (needle : List Char) : List Char → Bool
  | [] => startsWithL needle []
  | c :: cs => startsWithL needle (c :: cs) || containsSubstr needle cs

def mappingWord : List Char := "mapping".toList

def mappingParenWord : List Char := "mapping(".toList

/-- `isMappingType` of `abis/helpers.go`: the name contains `mapping`. -/
def isMappingTypeL (name : List Char) : Bool := containsSubstr mappingWord name

def isMappingType (name : String) : Bool := isMappingTypeL name.toList

/-- The Go regexp class `\w`, i.e. `[0-9A-Za-z_]`. -/
def isWordChar (c : Char) : Bool := c.isAlphanum || c == '_'

/-- The Go regexp class `\s`, i.e. `[\t\n\f\r ]`. -/
def isSpaceChar (c : Char) : Bool :=
  c == ' ' || c == '\t' || c == '\n' || c == '\r' || c == '\x0c'

/-- Index of the last occurrence of `c` in the list, if any. -/
def lastIndexOf (c : Char) : List Char → Option Nat
  | [] => none
  | a :: as =>
    match lastIndexOf c as with
    | some q => some (q + 1)
    | none => if a == c then some 0 else none

/-- Leftmost-first match of the regexp tail `(.+)\)`: the greedy `.+`
cannot cross a newline and backtracks from the right, so the `)` consumed
by the pattern is the last `)` of the leading newline-free segment, and
the capture (returned here) is everything before it, required nonempty. -/
def dotPlusClose (rest : List Char) : Option (List Char) :=
  let line := rest.takeWhile (fun c => !(c == '\n'))
  match lastIndexOf ')' line with
  | some q => if 1 ≤ q then some (line.take q) else none
  | none => none

/-- Greedy `\s*` with backtracking, tried from `k` whitespace chars
consumed down to zero, each time followed by `(.+)\)` on the rest. -/
def tryWs (s : List Char) : Nat → Option (List Char)
  | 0 => dotPlusClose s
  | k + 1 =>
    match dotPlusClose (s.drop (k + 1)) with
    | some v => some v
    | none => tryWs s k

/-- Continuation of the regexp `mapping\((\w+)\s*=>\s*(.+)\)` right
after the literal `mapping(`: the `\w+` run and the first `\s*` run are
forced maximal (a word char is neither whitespace nor `=`, so shorter
runs cannot match), then the literal `=>`, then greedy `\s*` with
backtracking, then `(.+)\)`.  Returns the two captures (key, value). -/
def matchAfterParen (s : List Char) : Option (List Char × List Char) :=
  let w := s.takeWhile isWordChar
  if w.isEmpty then none
  else
    match s.dropWhile isWordChar |>.dropWhile isSpaceChar with
    | '=' :: '>' :: s3 =>
      match tryWs s3 (s3.takeWhile isSpaceChar).length with
      | some v => some (w, v)
      | none => none
    | _ => none

/-- Go `regexp.FindStringSubmatch` for `mapping\((\w+)\s*=>\s*(.+)\)`:
scan left to right for the first position at which a match starts (every
match starts with the literal `mapping(`) and return the two captures. -/
def findMapping : List Char → Option (List Char × List Char)
  | [] => none
  | c :: cs =>
    if startsWithL mappingParenWord (c :: cs) then
      match matchAfterParen ((c :: cs).drop 8) with
      | some kv => some kv
      | none => findMapping cs
    else findMapping cs

/-- Fuel-indexed embedding of `parseMappingType`: on a regexp match the
key capture is accumulated and, when the value capture is itself a
mapping type, the function recurses on it and keeps only the innermost
value list.  The recursion is on the value capture, which is strictly
shorter than the input (`findMapping_length`), so fuel `length + 1`
(used by `parseMappingType`) never runs out (`parseMappingGo_stable`). -/
def parseMappingGo : Nat → List Char → Bool × List (List Char) × List (List Char)
  | 0, _ => (false, [], [])
  | fuel + 1, abi =>
    match findMapping abi with
    | none => (false, [], [])
    | some (k, v) =>
      if isMappingTypeL v then
        let nested := parseMappingGo fuel v
        (true, k :: nested.2.1, nested.2.2)
      else (true, [k], [v])

/-- `parseMappingType` of `abis/helpers.go` with the fuel instantiated. -/
def parseMappingType (abi : List Char) : Bool × List (List Char) × List (List Char) :=
  parseMappingGo (abi.length + 1) abi

example : parseMappingType "mapping(address => mapping(uint256 => bytes32))".toList =
    (true, ["address".toList, "uint256".toList], ["bytes32".toList]) := by decide

theorem lastIndexOf_lt_length (c : Char) :
    ∀ (l : List Char) (q : Nat), lastIndexOf c l = some q → q < l.length := by
  intro l
  induction l with
  | nil => intro q h; simp [lastIndexOf] at h
  | cons a as ih =>
    intro q h
    simp only [lastIndexOf] at h
    cases hq : lastIndexOf c as with
    | some q' =>
      rw [hq] at h
      cases h
      have := ih q' hq
      simp only [List.length_cons]
      omega
    | none =>
      rw [hq] at h
      by_cases hac : (a == c) = true
      · rw [if_pos hac] at h
        cases h
        simp
      · rw [if_neg hac] at h
        cases h

theorem dotPlusClose_length (rest v : List Char) (h : dotPlusClose rest = some v) :
    v.length < rest.length := by
  simp only [dotPlusClose] at h
  split at h
  case _ q hq =>
    split at h
    · cases h
      have hqlt : q < (rest.takeWhile (fun c => !(c == '\n'))).length :=
        lastIndexOf_lt_length ')' _ q hq
      have hle : (rest.takeWhile (fun c => !(c == '\n'))).length ≤ rest.length :=
        (List.takeWhile_sublist _).length_le
      simp only [List.length_take]
      omega
    · cases h
  case _ => cases h

theorem tryWs_length (s : List Char) :
    ∀ (k : Nat) (v : List Char), tryWs s k = some v → v.length < s.length := by
  intro k
  induction k with
  | zero =>
    intro v h
    simp only [tryWs] at h
    exact dotPlusClose_length s v h
  | succ k ih =>
    intro v h
    simp only [tryWs] at h
    cases hd : dotPlusClose (s.drop (k + 1)) with
    | some v' =>
      rw [hd] at h
      cases h
      have h1 := dotPlusClose_length _ _ hd
      have h2 : (s.drop (k + 1)).length ≤ s.length := by
        rw [List.length_drop]; omega
      omega
    | none =>
      rw [hd] at h
      exact ih v h

theorem matchAfterParen_length (s : List Char) (kv : List Char × List Char)
    (h : matchAfterParen s = some kv) : kv.2.length < s.length := by
  simp only [matchAfterParen] at h
  split at h
  · cases h
  · split at h
    case _ s3 heq =>
      have hs3 : s3.length + 2 ≤ s.length := by
        have h1 : ((s.dropWhile isWordChar).dropWhile isSpaceChar).length ≤
            (s.dropWhile isWordChar).length := (List.dropWhile_sublist _).length_le
        have h2 : (s.dropWhile isWordChar).length ≤ s.length := (List.dropWhile_sublist _).length_le
        have h3 : ((s.dropWhile isWordChar).dropWhile isSpaceChar).length = s3.length + 2 := by
          rw [heq]; simp
        omega
      split at h
      case _ v hv =>
        cases h
        have := tryWs_length s3 _ v hv
        simp only []
        omega
      case _ => cases h
    case _ => cases h

theorem findMapping_length :
    ∀ (s : List Char) (kv : List Char × List Char),
      findMapping s = some kv → kv.2.length < s.length := by
  intro s
  induction s with
  | nil => intro kv h; simp [findMapping] at h
  | cons c cs ih =>
    intro kv h
    simp only [findMapping] at h
    by_cases hp : startsWithL mappingParenWord (c :: cs) = true
    · simp only [hp, if_true] at h
      cases hm : matchAfterParen ((c :: cs).drop 8) with
      | some kv' =>
        rw [hm] at h
        cases h
        have h1 := matchAfterParen_length _ _ hm
        have h2 : ((c :: cs).drop 8).length ≤ (c :: cs).length := by
          rw [List.length_drop]; omega
        omega
      | none =>
        rw [hm] at h
        have := ih kv h
        simp only [List.length_cons]
        omega
    · simp only [Bool.not_eq_true] at hp
      simp only [hp, Bool.false_eq_true, if_false] at h
      have := ih kv h
      simp only [List.length_cons]
      omega

theorem startsWithL_of_append :
    ∀ (p q t : List Char), startsWithL (p ++ q) t = true → startsWithL p t = true := by
  intro p
  induction p with
  | nil => intro q t _; rfl
  | cons a as ih =>
    intro q t h
    cases t with
    | nil => simp [startsWithL] at h
    | cons b bs =>
      simp only [List.cons_append, startsWithL, Bool.and_eq_true] at h ⊢
      exact ⟨h.1, ih q bs h.2⟩

theorem findMapping_contains :
    ∀ (s : List Char) (kv : List Char × List Char), findMapping s = some kv →
      containsSubstr mappingWord s = true := by
  intro s
  induction s with
  | nil => intro kv h; simp [findMapping] at h
  | cons c cs ih =>
    intro kv h
    simp only [findMapping] at h
    by_cases hp : startsWithL mappingParenWord (c :: cs) = true
    · have hw : startsWithL mappingWord (c :: cs) = true := by
        have he : mappingParenWord = mappingWord ++ ['('] := by decide
        rw [he] at hp
        exact startsWithL_of_append mappingWord ['('] (c :: cs) hp
      simp [containsSubstr, hw]
    · simp only [Bool.not_eq_true] at hp
      simp only [hp, Bool.false_eq_true, if_false] at h
      have := ih kv h
      simp [containsSubstr, this]

theorem findMapping_none_of_not_mapping (s : List Char) (hs : isMappingTypeL s = false) :
    findMapping s = none := by
  cases hf : findMapping s with
  | none => rfl
  | some kv =>
    have hc := findMapping_contains s kv hf
    rw [isMappingTypeL, hc] at hs
    cases hs

theorem parseMappingGo_stable :
    ∀ (k : Nat) (abi : List Char) (n m : Nat),
      abi.length ≤ k → abi.length < n → abi.length < m →
      parseMappingGo n abi = parseMappingGo m abi := by
  intro k
  induction k with
  | zero =>
    intro abi n m hk hn hm
    have habi : abi = [] := List.length_eq_zero.mp (Nat.le_zero.mp hk)
    subst habi
    cases n with
    | zero => omega
    | succ n' =>
      cases m with
      | zero => omega
      | succ m' => rfl
  | succ k ih =>
    intro abi n m hk hn hm
    cases n with
    | zero => omega
    | succ n' =>
      cases m with
      | zero => omega
      | succ m' =>
        simp only [parseMappingGo]
        cases hf : findMapping abi with
        | none => rfl
        | some kv =>
          obtain ⟨kk, v⟩ := kv
          have hlt : v.length < abi.length := findMapping_length abi (kk, v) hf
          by_cases hmt : isMappingTypeL v = true
          · simp only [hmt, if_true]
            rw [ih v n' m' (by omega) (by omega) (by omega)]
          · simp only [Bool.not_eq_true] at hmt
            simp only [hmt, Bool.false_eq_true, if_false]

/-- C7: `parseMappingType` flattens nested mappings: on
`mapping(address => mapping(uint256 => bytes32))` it returns ok,
keys `[address, uint256]` accumulated left to right and only the
innermost value `[bytes32]`; and on any input that is not a mapping type
it returns `(false, [], [])`. -/
theorem c7_parseMappingType :
    parseMappingType "mapping(address => mapping(uint256 => bytes32))".toList =
      (true, ["address".toList, "uint256".toList], ["bytes32".toList]) ∧
    ∀ s : List Char, isMappingTypeL s = false → parseMappingType s = (false, [], []) := by
  constructor
  · decide
  · intro s hs
    have hf : findMapping s = none := findMapping_none_of_not_mapping s hs
    show parseMappingGo (s.length + 1) s = (false, [], [])
    simp only [parseMappingGo, hf]

/-- C7 witness: the non-mapping part of `c7_parseMappingType` applied at
the concrete input `uint256`. -/
theorem c7_parseMappingType_witness :
    isMappingTypeL "uint256".toList = false ∧
      parseMappingType "uint256".toList = (false, [], []) :=
  ⟨by decide, c7_parseMappingType.2 "uint256".toList (by decide)⟩

/-! ## AST node models -/

/-- The `{type_identifier, type_string}` pair carried by AST nodes. -/
structure TypeDescription where
  typeIdentifier : String
  typeString : String
deriving DecidableEq

/-- Observable surface of a parsed operand expression: its id and the
result of its `GetTypeDescription` (a nil pointer is `none`). -/
structure ExprNode where
  id : Int
  typeDescription : Option TypeDescription
deriving DecidableEq

/-- The `BitXorOperation` AST node (`abis/helpers.go`, third document). -/
structure BitXorOperation where
  id : Int
  srcId : Int
  expressions : List ExprNode
  typeDescriptions : List (Option TypeDescription)
deriving DecidableEq

/-- `NewBitXorOperationExpression`: a fresh node taking an id from the
build's allocator, with an empty `TypeDescriptions` list. -/
def NewBitXorOperationExpression (nextId : Int) : BitXorOperation :=
  { id := nextId, srcId := 0, expressions := [], typeDescriptions := [] }

/-- `GetTypeDescription` returns `f.TypeDescriptions[0]`.  Indexing an
empty Go slice at 0 panics, modelled by the outer `none`; the inner
`Option` is the possibly-nil stored pointer. -/
def BitXorOperation.getTypeDescription (f : BitXorOperation) :
    Option (Option TypeDescription) :=
  f.typeDescriptions.get? 0

/-- `BitXorOperation.Parse`: takes fresh ids for the node and its src,
then appends each parsed operand expression and that operand's own type
description, in order, to `Expressions` and `TypeDescriptions`. -/
def BitXorOperation.parse (f : BitXorOperation) (nextId : Int) (operands : List ExprNode) :
    BitXorOperation :=
  { f with
    id := nextId
    srcId := nextId + 1
    expressions := f.expressions ++ operands
    typeDescriptions := f.typeDescriptions ++ operands.map ExprNode.typeDescription }

def td_uint8 : TypeDescription := { typeIdentifier := "t_uint8", typeString := "uint8" }

def td_uint256 : TypeDescription := { typeIdentifier := "t_uint256", typeString := "uint256" }

/-- C10: `GetTypeDescription` on a parsed `BitXorOperation` returns
exactly the first element of its `TypeDescriptions` list — the first
operand's type description — and on a freshly constructed node, whose
list is empty, the index-0 access is out of bounds (the `none`). -/
theorem c10_bitxor_getTypeDescription :
    (∀ (b nid : Int) (e : ExprNode) (ops : List ExprNode),
      ((NewBitXorOperationExpression b).parse nid (e :: ops)).getTypeDescription =
        some e.typeDescription) ∧
    (∀ b : Int, (NewBitXorOperationExpression b).getTypeDescription = none) :=
  ⟨fun _ _ _ _ => rfl, fun _ => rfl⟩

/-- C3 counterexample: a bit-xor node parsed with operand types `uint8`
and `uint256`.  Usual arithmetic conversions would give the node the
wider type `uint256`; the code gives it the FIRST operand's type
`uint8`, so the node's type description is not the widened result. -/
theorem c3_bitxor_result_type_counterexample :
    ((NewBitXorOperationExpression 1).parse 2
        [{ id := 10, typeDescription := some td_uint8 },
         { id := 11, typeDescription := some td_uint256 }]).getTypeDescription =
      some (some td_uint8) ∧ td_uint8 ≠ td_uint256 :=
  ⟨rfl, by decide⟩

/-- C3 (amended): for every bit-xor node with two or more operands, the
node's own type description is exactly the FIRST operand's type
description; no usual-arithmetic-conversions widening is performed. -/
theorem c3_bitxor_result_type_amended (b nid : Int) (e1 e2 : ExprNode)
    (rest : List ExprNode) :
    ((NewBitXorOperationExpression b).parse nid (e1 :: e2 :: rest)).getTypeDescription =
      some e1.typeDescription := rfl

/-- Base contract node: the field the claims inspect. -/
structure GoBaseContract where
  baseName : String
deriving DecidableEq

/-- Modelled from the spec: `parseInheritanceFromCtx` is missing from the
sources (only its call site in `Contract.Parse` is present); per the
spec, each inheritance specifier yields one `BaseContract` whose
`base_name` is the specifier's name. -/
def parseInheritanceFromCtx (specifiers : List String) : List GoBaseContract :=
  specifiers.map (fun n => { baseName := n })

/-- Observable outcome of one contract body element, exactly as branched
on by `Contract.Parse`: whether the element is empty, whether
`BodyNode.ParseDefinitions` (external to the sources) returned nil, and
the body node's node-type/implemented flags. -/
structure BodyOutcome where
  isEmpty : Bool
  childIsNil : Bool
  isFunctionDef : Bool
  implemented : Bool
deriving DecidableEq

/-- Parse-context input of `Contract.Parse`: the contract name, the
inheritance specifier names, the ids of the import nodes parsed for the
source unit, and the body-element outcomes. -/
structure ContractCtx where
  name : String
  inheritanceSpecifiers : List String
  importIds : List Int
  body : List BodyOutcome

/-- The contract node fields assigned by `Contract.Parse`. -/
structure ContractNode where
  id : Int
  name : String
  abstract : Bool
  fullyImplemented : Bool
  linearizedBaseContracts : List Int
  baseContracts : List GoBaseContract
  contractDependencies : List Int
deriving DecidableEq

/-- `Contract.Parse` (`abis/helpers.go`, second document): the unit's
`SrcNode` takes the first fresh id and the contract node the next one;
`FullyImplemented` is seeded `true`; `LinearizedBaseContracts` is seeded
with the contract's own id and then receives ONLY the ids of the
unit's import nodes (which also become `ContractDependencies`); every body
element that is empty, whose parse returns nil, or that is an
unimplemented function definition clears `FullyImplemented`. -/
def contractParse (nextId : Int) (ctx : ContractCtx) : ContractNode :=
  let cid := nextId + 1
  { id := cid
    name := ctx.name
    abstract := false
    fullyImplemented := ctx.body.foldl
      (fun acc e =>
        if e.isEmpty then false
        else if e.childIsNil then false
        else if e.isFunctionDef && !e.implemented then false
        else acc) true
    linearizedBaseContracts := cid :: ctx.importIds
    baseContracts := parseInheritanceFromCtx ctx.inheritanceSpecifiers
    contractDependencies := ctx.importIds }

/-- The S3 scenario's contract `B`: `contract B is A {}`, no imports. -/
def ctxB : ContractCtx :=
  { name := "B", inheritanceSpecifiers := ["A"], importIds := [], body := [] }

/-- C1 counterexample: for the S3 input the parsed `B` has
`linearized_base_contracts = [B.id]`, a one-element list, so it cannot
equal `[B.id, A.id]`: the id of base contract `A` is never appended —
only import ids are, and `contract B is A {}` has no imports. -/
theorem c1_linearized_counterexample :
    (contractParse 10 ctxB).linearizedBaseContracts = [(contractParse 10 ctxB).id] ∧
    (contractParse 10 ctxB).linearizedBaseContracts.length = 1 :=
  ⟨rfl, rfl⟩

/-- C1 (amended): `linearized_base_contracts` is the contract's own id
followed by the ids of the source unit's import nodes — base-contract
ids are not appended — so for `contract A {} contract B is A {}` (with
no imports) it equals `[B.id]`; and `B.base_contracts[0].base_name = "A"`
(inheritance modelled from the spec). -/
theorem c1_linearized_amended :
    (∀ (nid : Int) (ctx : ContractCtx),
      (contractParse nid ctx).linearizedBaseContracts =
        (contractParse nid ctx).id :: ctx.importIds) ∧
    (contractParse 10 ctxB).linearizedBaseContracts = [(contractParse 10 ctxB).id] ∧
    (contractParse 10 ctxB).baseContracts.map GoBaseContract.baseName = ["A"] :=
  ⟨fun _ _ => rfl, rfl, rfl⟩

/-- The condition under which one body element leaves
`FullyImplemented` untouched in `Contract.Parse`. -/
def bodyOK (e : BodyOutcome) : Bool :=
  !e.isEmpty && (!e.childIsNil && !(e.isFunctionDef && !e.implemented))

theorem contract_foldl_eq (l : List BodyOutcome) :
    ∀ acc : Bool,
      l.foldl (fun acc e =>
        if e.isEmpty then false
        else if e.childIsNil then false
        else if e.isFunctionDef && !e.implemented then false
        else acc) acc = (acc && l.all bodyOK) := by
  induction l with
  | nil => intro acc; simp
  | cons e es ih =>
    intro acc
    simp only [List.foldl_cons, List.all_cons]
    rw [ih]
    have hstep : (if e.isEmpty then false
        else if e.childIsNil then false
        else if e.isFunctionDef && !e.implemented then false
        else acc) = (acc && bodyOK e) := by
      by_cases h1 : e.isEmpty = true
      · simp [bodyOK, h1]
      · rw [Bool.not_eq_true] at h1
        by_cases h2 : e.childIsNil = true
        · simp [bodyOK, h1, h2]
        · rw [Bool.not_eq_true] at h2
          by_cases h3 : (e.isFunctionDef && !e.implemented) = true
          · simp [bodyOK, h1, h2, h3]
          · rw [Bool.not_eq_true] at h3
            simp [bodyOK, h1, h2, h3]
    rw [hstep, Bool.and_assoc]

theorem bodyOK_iff (e : BodyOutcome) :
    bodyOK e = true ↔
      e.isEmpty = false ∧ e.childIsNil = false ∧
        (e.isFunctionDef = true → e.implemented = true) := by
  obtain ⟨b1, b2, b3, b4⟩ := e
  cases b1 <;> cases b2 <;> cases b3 <;> cases b4 <;> decide

/-- A non-empty body element whose `ParseDefinitions` returns nil. -/
def nilChildElem : BodyOutcome :=
  { isEmpty := false, childIsNil := true, isFunctionDef := false, implemented := false }

/-- A non-empty body element parsed as an implemented function. -/
def implementedFnElem : BodyOutcome :=
  { isEmpty := false, childIsNil := false, isFunctionDef := true, implemented := true }

def ctxC : ContractCtx :=
  { name := "C", inheritanceSpecifiers := [], importIds := [], body := [nilChildElem] }

def ctxD : ContractCtx :=
  { name := "D", inheritanceSpecifiers := [], importIds := [], body := [implementedFnElem] }

/-- C6 counterexample: a contract whose single body element is non-empty
but whose `ParseDefinitions` returns nil.  No body element is empty and
every parsed function definition is (vacuously) implemented — the
claim's right-hand side holds — yet `fully_implemented` ends `false`,
because the nil-child branch of `Contract.Parse` also clears the flag.
The claim's `iff` therefore fails. -/
theorem c6_fully_implemented_counterexample :
    (contractParse 0 ctxC).fullyImplemented = false ∧
    ([nilChildElem] : List BodyOutcome).all
      (fun e => !e.isEmpty && (!e.isFunctionDef || e.implemented)) = true :=
  ⟨rfl, rfl⟩

/-- C6 (amended): after `Contract.Parse`, `fully_implemented` is true
iff no body element was empty, no body element's parse returned nil,
and every parsed function definition is implemented (the flag is seeded
true and cleared by any of those three conditions). -/
theorem c6_fully_implemented_amended (nid : Int) (ctx : ContractCtx) :
    (contractParse nid ctx).fullyImplemented = true ↔
      ∀ e ∈ ctx.body, e.isEmpty = false ∧ e.childIsNil = false ∧
        (e.isFunctionDef = true → e.implemented = true) := by
  simp only [contractParse]
  rw [contract_foldl_eq]
  simp only [Bool.true_and, List.all_eq_true]
  constructor
  · intro h e he
    exact (bodyOK_iff e).mp (h e he)
  · intro h e he
    exact (bodyOK_iff e).mpr (h e he)

/-- C6 witness: the amended `iff` applied to a concrete contract with
one implemented function, giving `fully_implemented = true`. -/
theorem c6_fully_implemented_witness :
    (contractParse 0 ctxD).fullyImplemented = true :=
  (c6_fully_implemented_amended 0 ctxD).mpr (by decide)

/-- The `Parameter`-shaped member node built for each enum value. -/
structure EnumMember where
  id : Int
  name : String
  typeIdentifier : String
  typeString : String
  parentIndex : Int
deriving DecidableEq

/-- The `EnumDefinition` AST node (`unnamed/part_000`). -/
structure EnumDefinition where
  id : Int
  srcId : Int
  srcParentIndex : Int
  sourceUnitName : String
  name : String
  canonicalName : String
  typeIdentifier : String
  typeString : String
  members : List EnumMember
deriving DecidableEq

/-- `NewEnumDefinition`: fresh id from the allocator. -/
def NewEnumDefinition (nextId : Int) : EnumDefinition :=
  { id := nextId, srcId := 0, srcParentIndex := 0, sourceUnitName := "", name := ""
    canonicalName := "", typeIdentifier := "", typeString := "", members := [] }

/-- `EnumDefinition.Parse`: the `Src` gets a fresh id with the enclosing
contract node's id as parent index; `CanonicalName` is
`fmt.Sprintf("%s.%s", unit.GetName(), e.Name)` — built from the SOURCE
UNIT's name — and each value becomes a `Parameter`-shaped member with
its own fresh id and enum-member type identifier. -/
def EnumDefinition.parse (e : EnumDefinition) (unitName : String)
    (contractNode : ContractNode) (enumName : String) (valueNames : List String)
    (nextId : Int) : EnumDefinition :=
  let canonical := unitName ++ "." ++ enumName
  { e with
    srcId := nextId
    srcParentIndex := contractNode.id
    sourceUnitName := unitName
    name := enumName
    canonicalName := canonical
    typeIdentifier := "t_enum_$_" ++ enumName ++ "_$" ++ toString e.id
    typeString := "enum " ++ canonical
    members := valueNames.enum.map (fun p =>
      { id := nextId + 1 + Int.ofNat p.1
        name := p.2
        typeIdentifier := "t_enum_$_" ++ enumName ++ "$_" ++ p.2 ++ "_$" ++
          toString (nextId + 1 + Int.ofNat p.1)
        typeString := "enum " ++ canonical ++ "." ++ p.2
        parentIndex := e.id }) }

/-- An enclosing contract named `C`, used by the C5 counterexample. -/
def contractNodeC : ContractNode :=
  { id := 2, name := "C", abstract := false, fullyImplemented := true
    linearizedBaseContracts := [2], baseContracts := [], contractDependencies := [] }

/-- C5 counterexample: an enum `E` parsed as a member of contract `C`
inside a source unit named `U` gets canonical name `U.E` — the source
unit's name prefixes it — not `C.E` as the claim states. -/
theorem c5_enum_canonical_counterexample :
    ((NewEnumDefinition 3).parse "U" contractNodeC "E" ["X", "Y"] 4).canonicalName = "U.E" ∧
    ("U.E" : String) ≠ "C" ++ "." ++ "E" :=
  ⟨rfl, by decide⟩

/-- C5 (amended): for every enum definition parsed as a member of an
enclosing contract, `canonical_name` equals
`<source_unit_name>.<enum_name>`: the SOURCE UNIT's name, not the
enclosing contract's name, prefixes member enums. -/
theorem c5_enum_canonical_amended (e0 : EnumDefinition) (unitName : String)
    (contractNode : ContractNode) (enumName : String) (valueNames : List String)
    (nextId : Int) :
    (e0.parse unitName contractNode enumName valueNames nextId).canonicalName =
      unitName ++ "." ++ enumName := rfl

/-! ## The IR root (`ir/root.go`) -/

/-- The EIP standards `SetContractType` switches on; `other` stands for
any further member of the external `eip.Standard` enumeration, for which
the switch has no case. -/
inductive GoEipStandard where
  | eip20
  | eip721
  | eip1155
  | eip1967
  | eip1820
  | other
deriving DecidableEq

/-- `HasContractType`: linear scan for string equality. -/
def hasContractType (types : List String) (ctype : String) : Bool :=
  types.any (fun t => t == ctype)

/-- `appendContractType`: append only if not already present. -/
def appendContractType (types : List String) (contractType : String) : List String :=
  if hasContractType types contractType then types else types ++ [contractType]

/-- `SetContractType`, acting on the `ContractTypes` list: `token` for
ERC-20, `nft` for ERC-721/1155, `proxy` then `upgradeable` for
ERC-1967/1820, nothing otherwise. -/
def setContractType (types : List String) (standard : GoEipStandard) : List String :=
  match standard with
  | .eip20 => appendContractType types "token"
  | .eip721 | .eip1155 => appendContractType types "nft"
  | .eip1967 | .eip1820 => appendContractType (appendContractType types "proxy") "upgradeable"
  | .other => types

theorem hasContractType_false_not_mem {types : List String} {c : String}
    (h : hasContractType types c = false) : c ∉ types := by
  intro hm
  have ht : types.any (fun t => t == c) = true := List.any_eq_true.mpr ⟨c, hm, by simp⟩
  rw [hasContractType, ht] at h
  cases h

theorem appendContractType_nodup {types : List String} (h : types.Nodup) (c : String) :
    (appendContractType types c).Nodup := by
  unfold appendContractType
  split
  · exact h
  · case _ hh =>
      rw [Bool.not_eq_true] at hh
      refine List.nodup_append.mpr ⟨h, List.nodup_singleton c, ?_⟩
      intro a ha hc
      rw [List.mem_singleton] at hc
      subst hc
      exact hasContractType_false_not_mem hh ha

theorem appendContractType_extends (types : List String) (c : String) :
    ∃ u, appendContractType types c = types ++ u := by
  unfold appendContractType
  split
  · exact ⟨[], by simp⟩
  · exact ⟨[c], rfl⟩

theorem setContractType_nodup {types : List String} (h : types.Nodup) (s : GoEipStandard) :
    (setContractType types s).Nodup := by
  cases s
  case eip20 => exact appendContractType_nodup h _
  case eip721 => exact appendContractType_nodup h _
  case eip1155 => exact appendContractType_nodup h _
  case eip1967 => exact appendContractType_nodup (appendContractType_nodup h _) _
  case eip1820 => exact appendContractType_nodup (appendContractType_nodup h _) _
  case other => exact h

theorem setContractType_extends (types : List String) (s : GoEipStandard) :
    ∃ u, setContractType types s = types ++ u := by
  cases s
  case eip20 => exact appendContractType_extends _ _
  case eip721 => exact appendContractType_extends _ _
  case eip1155 => exact appendContractType_extends _ _
  case eip1967 =>
    obtain ⟨u1, h1⟩ := appendContractType_extends types "proxy"
    obtain ⟨u2, h2⟩ := appendContractType_extends (appendContractType types "proxy") "upgradeable"
    refine ⟨u1 ++ u2, ?_⟩
    show appendContractType (appendContractType types "proxy") "upgradeable" = _
    rw [h2, h1, List.append_assoc]
  case eip1820 =>
    obtain ⟨u1, h1⟩ := appendContractType_extends types "proxy"
    obtain ⟨u2, h2⟩ := appendContractType_extends (appendContractType types "proxy") "upgradeable"
    refine ⟨u1 ++ u2, ?_⟩
    show appendContractType (appendContractType types "proxy") "upgradeable" = _
    rw [h2, h1, List.append_assoc]
  case other => exact ⟨[], by simp [setContractType]⟩

theorem foldl_setContractType_nodup :
    ∀ (stds : List GoEipStandard) (types : List String), types.Nodup →
      (stds.foldl setContractType types).Nodup := by
  intro stds
  induction stds with
  | nil => intro types h; exact h
  | cons s ss ih =>
    intro types h
    exact ih _ (setContractType_nodup h s)

/-- C9: starting from the empty list, any sequence of `SetContractType`
calls leaves `contract_types` duplicate-free; each call only appends to
the existing list (preserving first-insertion order); and the
per-standard additions are as documented, skipped when already
present. -/
theorem c9_contract_types_invariant :
    (∀ stds : List GoEipStandard, (stds.foldl setContractType []).Nodup) ∧
    (∀ (types : List String) (s : GoEipStandard), ∃ u, setContractType types s = types ++ u) ∧
    setContractType [] .eip20 = ["token"] ∧
    setContractType [] .eip721 = ["nft"] ∧
    setContractType [] .eip1155 = ["nft"] ∧
    setContractType [] .eip1967 = ["proxy", "upgradeable"] ∧
    setContractType [] .eip1820 = ["proxy", "upgradeable"] ∧
    setContractType ["token"] .eip20 = ["token"] ∧
    setContractType [] .other = [] := by
  refine ⟨fun stds => foldl_setContractType_nodup stds [] List.nodup_nil,
    setContractType_extends, ?_, ?_, ?_, ?_, ?_, ?_, ?_⟩ <;> decide

/-! ## The bytecode verifier (`unnamed/part_001`) -/

/-- The compiler collaborator's result (the field `Verify` reads). -/
structure CompilerResults where
  bytecode : String
deriving DecidableEq

/-- `VerifyResult`; the external `diffmatchpatch` collaborator is
modelled by recording the pair of strings `DiffMain` is called on
(`none` when the code instead builds the empty diff list). -/
structure VerifyResult where
  verified : Bool
  expectedBytecode : String
  diffsInput : Option (String × String)
deriving DecidableEq

/-- Lower-case hex digit. -/
def hexDigitChar (n : Nat) : Char :=
  if n < 10 then Char.ofNat (48 + n) else Char.ofNat (87 + n)

/-- Go `hex.EncodeToString` on a byte slice (bytes as naturals). -/
def hexEncodeToString (bs : List Nat) : String :=
  List.asString (bs.flatMap (fun b => [hexDigitChar (b % 256 / 16), hexDigitChar (b % 16)]))

/-- `Verifier.Verify`: the external compiler's outcome is passed in as
the first argument (spec section 6.2).  On a compile error, `(nil, err)`.
Otherwise the supplied bytecode is hex-encoded and compared with the
compiled bytecode: on mismatch the code returns BOTH a populated result
(verified=false, with diffs) AND a non-nil error; on equality it returns
(verified=true, empty diffs) and a nil error.  The Go return pair
`(*VerifyResult, error)` is a pair of Options. -/
def VerifierVerify :
    Except String CompilerResults → List Nat → Option VerifyResult × Option String
  | .error e, _ => (none, some e)
  | .ok results, bytecode =>
    let encoded := hexEncodeToString bytecode
    if encoded ≠ results.bytecode then
      (some { verified := false, expectedBytecode := encoded,
              diffsInput := some (encoded, results.bytecode) },
       some "bytecode missmatch, failed to verify")
    else
      (some { verified := true, expectedBytecode := encoded, diffsInput := none }, none)

/-- C2 counterexample: with compiled bytecode `00` and supplied byte
`0x01`, `Verify` returns the mismatch result AND a non-nil error
(`"bytecode missmatch, failed to verify"`), contradicting the claim that
a mismatch is returned purely as data with no error. -/
theorem c2_verify_counterexample :
    (VerifierVerify (.ok { bytecode := "00" }) [1]).2 =
        some "bytecode missmatch, failed to verify" ∧
    (VerifierVerify (.ok { bytecode := "00" }) [1]).1 =
        some { verified := false, expectedBytecode := "01", diffsInput := some ("01", "00") } := by
  constructor
  · decide
  · decide

/-- C2 (amended): on a successful compile, `Verify` returns a result
whose `verified` flag is true exactly when the hex-encoded bytecode
equals the compiled bytecode, and the error is nil exactly in that case:
a mismatch yields the diffs-carrying result with `verified = false`
TOGETHER WITH a non-nil mismatch error. -/
theorem c2_verify_amended (results : CompilerResults) (bs : List Nat) :
    ((VerifierVerify (.ok results) bs).1.map VerifyResult.verified =
        some (hexEncodeToString bs == results.bytecode)) ∧
    ((VerifierVerify (.ok results) bs).2 = none ↔ hexEncodeToString bs = results.bytecode) ∧
    (hexEncodeToString bs ≠ results.bytecode →
      VerifierVerify (.ok results) bs =
        (some { verified := false, expectedBytecode := hexEncodeToString bs,
                diffsInput := some (hexEncodeToString bs, results.bytecode) },
         some "bytecode missmatch, failed to verify")) := by
  simp only [VerifierVerify]
  by_cases h : hexEncodeToString bs = results.bytecode
  · rw [if_neg (fun hne => hne h)]
    refine ⟨by simp [h], by simp [h], fun hne => absurd h hne⟩
  · rw [if_pos h]
    refine ⟨by simp [beq_eq_false_iff_ne.mpr h], ?_, fun _ => rfl⟩
    simp only [Option.some.injEq]
    constructor
    · intro hx; cases hx
    · intro hx; exact absurd hx h

/-- C2 witness: the amended theorem applied at a matching pair. -/
theorem c2_verify_witness :
    (VerifierVerify (.ok { bytecode := "01" }) [1]).2 = none :=
  ((c2_verify_amended { bytecode := "01" } [1]).2.1).mpr (by decide)
